import Mathlib

/-!
Verification of the temporal camera engine of the autozoom video editor
(`src/components/video-editor.tsx`).  The numeric domain of the source
(JS doubles) is embedded as `ℚ`; every definition below is a direct
translation of the corresponding TypeScript, with the one systematic
change that a division whose denominator is zero (IEEE `NaN`/`∞` in JS)
is modelled by an `Option` result (`none`), so that "the division is
never undefined" becomes "the function returns `some _`".
-/

/-- Easing tag carried by a keyframe: `'linear' | 'ease-in-out'` in the
source.  The interpolation loops ignore this field; it is kept for
faithfulness of the data model. -/
inductive Easing where
  | linear
  | easeInOut
deriving DecidableEq, Repr

/-- Keyframe record from `video-editor.tsx`:
`{ id, time, zoom, x, y, easing? }`. -/
structure Keyframe where
  id : String
  time : ℚ
  zoom : ℚ
  x : ℚ
  y : ℚ
  easing : Option Easing
deriving DecidableEq, Repr

/-- Camera pose `(zoom, x%, y%)` at an instant. -/
structure Pose where
  zoom : ℚ
  x : ℚ
  y : ℚ
deriving DecidableEq, Repr

/-- Pose carried by a keyframe. -/
def Keyframe.pose (k : Keyframe) : Pose := ⟨k.zoom, k.x, k.y⟩

/-- Default keyframe used for out-of-range list access in the model
(never actually reached on the inputs we prove about). -/
def defaultKeyframe : Keyframe := ⟨"", 0, 1, 50, 50, none⟩

instance : Inhabited Keyframe := ⟨defaultKeyframe⟩

/-- ZoomRegion record:
`{ id, startTime, endTime, targetZoom, initialX, initialY }`. -/
structure ZoomRegion where
  id : String
  startTime : ℚ
  endTime : ℚ
  targetZoom : ℚ
  initialX : ℚ
  initialY : ℚ
deriving DecidableEq, Repr

/-- Recorded input event type, from `screen-recorder.tsx`:
`'mousemove' | 'mousedown' | 'mouseup' | 'keydown'`. -/
inductive EventType where
  | mousemove
  | mousedown
  | mouseup
  | keydown
deriving DecidableEq, Repr

/-- Recorded input event `{ type, time, x, y }` (time in seconds,
x/y in percent). -/
structure MouseEvent where
  type : EventType
  time : ℚ
  x : ℚ
  y : ℚ
deriving DecidableEq, Repr

/-- Quadratic ease used by the export compositor (`renderFrame`) and by
the first editor variant's preview:
`(t) => t < .5 ? 2 * t * t : -1 + (4 - 2 * t) * t`. -/
def easeInOutQuad (t : ℚ) : ℚ :=
  if t < 1/2 then 2 * t * t else -1 + (4 - 2 * t) * t

/-- Cubic ease used by the region editor's preview loop
(`updateTransform`):
`(t) => t < .5 ? 4 * t * t * t : (t - 1) * (2 * t - 2) * (2 * t - 2) + 1`. -/
def easeInOutCubic (t : ℚ) : ℚ :=
  if t < 1/2 then 4 * t * t * t else (t - 1) * (2 * t - 2) * (2 * t - 2) + 1

/-- Model of `sortedKeyframes.findIndex(k => k.time > time)`: index of
the first keyframe strictly after `t`, `none` for JS `-1`. -/
def findNext (t : ℚ) : List Keyframe → Option Nat
  | [] => none
  | k :: rest => if t < k.time then some 0 else (findNext t rest).map (· + 1)

/-- Shared interpolation core of `updateTransform` (preview) and
`renderFrame` (export); the two call sites differ only in the easing
function `e` and are obtained below as `updateTransformPose` and
`renderFramePose`.  The trajectory argument corresponds to the already
sorted `sortedKeyframes` array.  The JS division
`(time - k1.time) / (k2.time - k1.time)` is modelled as `none` when the
denominator is zero (it would produce `NaN`/`∞` in JS); we prove this
branch is unreachable. -/
def sampleWith (e : ℚ → ℚ) (kfs : List Keyframe) (t : ℚ) : Option Pose :=
  if kfs.length = 0 then none
  else
    match findNext t kfs with
    | some 0 => some (kfs.getD 0 defaultKeyframe).pose
    | some (n + 1) =>
        let k1 := kfs.getD n defaultKeyframe
        let k2 := kfs.getD (n + 1) defaultKeyframe
        if k2.time - k1.time = 0 then none
        else
          let easedProgress := e ((t - k1.time) / (k2.time - k1.time))
          some ⟨k1.zoom + (k2.zoom - k1.zoom) * easedProgress,
                k1.x + (k2.x - k1.x) * easedProgress,
                k1.y + (k2.y - k1.y) * easedProgress⟩
    | none => some (kfs.getD (kfs.length - 1) defaultKeyframe).pose

/-- Stable ascending insert by `time`; helper for `sortKeyframes`. -/
def sinsert (k : Keyframe) : List Keyframe → List Keyframe
  | [] => [k]
  | k2 :: rest => if k.time ≤ k2.time then k :: k2 :: rest else k2 :: sinsert k rest

/-- Model of `[...].sort((a, b) => a.time - b.time)`.  JS `Array.sort`
with this comparator is a stable ascending sort by `time`; this
insertion sort (inserting earlier-listed elements in front of
equal-time elements) is extensionally the same stable sort. -/
def sortKeyframes : List Keyframe → List Keyframe
  | [] => []
  | k :: rest => sinsert k (sortKeyframes rest)

/-- Tail worker of `debounce`: `prev` is the positional predecessor
`arr[i-1]` of the element under examination. -/
def debounceGo (prev : Keyframe) : List Keyframe → List Keyframe
  | [] => []
  | kf :: rest =>
    if kf.time - prev.time > 1/20 then kf :: debounceGo kf rest
    else debounceGo kf rest

/-- Model of the compile step's final pass
`.filter((kf, i, arr) => i === 0 ? true : (kf.time - arr[i - 1].time) > 0.05)`.
The first element is always kept, and every later element is compared
with its positional predecessor `arr[i-1]` in the sorted array — whether
or not that predecessor itself survived the filter. -/
def debounce : List Keyframe → List Keyframe
  | [] => []
  | kf :: rest => kf :: debounceGo kf rest

/-- Follow-keyframe sampling inside a region: the `moves.forEach` loop
with its mutable `lastSampleTime`, emitting a follow keyframe whenever
`move.time - lastSampleTime > 0.15`.  (The numeral in the generated id
is rendered with `toString`; no claim depends on id text.) -/
def followKfs (rid : String) (zoom : ℚ) : ℚ → List MouseEvent → List Keyframe
  | _, [] => []
  | lastSampleTime, m :: ms =>
    if m.time - lastSampleTime > 3/20 then
      ⟨"region-" ++ rid ++ "-follow-" ++ toString m.time, m.time, zoom, m.x, m.y,
        some Easing.linear⟩ :: followKfs rid zoom m.time ms
    else followKfs rid zoom lastSampleTime ms

/-- Keyframes pushed for one region by the derive-keyframes effect:
optional anchor at `startTime - 0.5`, zoom-in at `startTime`, follow
samples and hold at `endTime` (falling back to the anchor position when
the event stream is empty), and the return-to-normal keyframe at
`endTime + 0.8`. -/
def regionKeyframes (mouseEvents : List MouseEvent) (region : ZoomRegion) : List Keyframe :=
  let anchor : List Keyframe :=
    if region.startTime > 1/2 then
      [⟨"region-" ++ region.id ++ "-anchor", region.startTime - 1/2, 1, 50, 50,
        some Easing.linear⟩]
    else []
  let startKf : Keyframe :=
    ⟨"region-" ++ region.id ++ "-start", region.startTime, region.targetZoom,
      region.initialX, region.initialY, some Easing.easeInOut⟩
  let middle : List Keyframe :=
    if mouseEvents.length > 0 then
      let moves := mouseEvents.filter fun ev =>
        ev.type == EventType.mousemove
          && decide (region.startTime < ev.time) && decide (ev.time < region.endTime)
      let lastPos : ℚ × ℚ :=
        match moves.getLast? with
        | some m => (m.x, m.y)
        | none => (region.initialX, region.initialY)
      followKfs region.id region.targetZoom region.startTime moves
        ++ [⟨"region-" ++ region.id ++ "-hold", region.endTime, region.targetZoom,
            lastPos.1, lastPos.2, some Easing.linear⟩]
    else
      [⟨"region-" ++ region.id ++ "-hold", region.endTime, region.targetZoom,
        region.initialX, region.initialY, some Easing.linear⟩]
  let endKf : Keyframe :=
    ⟨"region-" ++ region.id ++ "-end", region.endTime + 4/5, 1, 50, 50,
      some Easing.easeInOut⟩
  anchor ++ [startKf] ++ middle ++ [endKf]

/-- The derive-keyframes effect (`compile`): manual keyframes verbatim,
followed per region by that region's derived keyframes, then sorted by
time and run through the debounce pass. -/
def deriveKeyframes (manualKeyframes : List Keyframe) (zoomRegions : List ZoomRegion)
    (mouseEvents : List MouseEvent) : List Keyframe :=
  debounce (sortKeyframes
    (manualKeyframes ++ (zoomRegions.map (regionKeyframes mouseEvents)).flatten))

/-- Pose targeted by the region editor's preview loop `updateTransform`
at time `t` (the loop re-sorts the keyframe state before searching). -/
def updateTransformPose (keyframes : List Keyframe) (t : ℚ) : Option Pose :=
  sampleWith easeInOutCubic (sortKeyframes keyframes) t

/-- Pose computed by the export loop `renderFrame` at time `t`. -/
def renderFramePose (keyframes : List Keyframe) (t : ℚ) : Option Pose :=
  sampleWith easeInOutQuad (sortKeyframes keyframes) t

/-- The always-present start keyframe. -/
def startKeyframe : Keyframe := ⟨"start", 0, 1, 50, 50, none⟩

/-- Editor core state: the manual keyframe set and the region set. -/
structure EditorState where
  manualKeyframes : List Keyframe
  zoomRegions : List ZoomRegion
deriving DecidableEq, Repr

/-- Initial editor state: sole `start` keyframe, no regions. -/
def initialEditorState : EditorState := ⟨[startKeyframe], []⟩

/-- Region editor's `addKeyframe`: appends a new keyframe (fresh
`Date.now()` id) to the manual set, no filtering. -/
def addKeyframe (s : EditorState) (id : String) (time zoom x y : ℚ) : EditorState :=
  { s with manualKeyframes := s.manualKeyframes ++ [⟨id, time, zoom, x, y, none⟩] }

/-- `deleteKeyframe`: refuses to delete the id `"start"`, otherwise
filters the keyframe out. -/
def deleteKeyframe (s : EditorState) (id : String) : EditorState :=
  if id = "start" then s
  else { s with manualKeyframes := s.manualKeyframes.filter fun k => k.id != id }

/-- First editor variant's `addKeyframe` (the 0.1 s proximity filter):
removes every existing keyframe within 0.1 s of the new time, then
appends the new keyframe and re-sorts. -/
def addKeyframeV1 (keyframes : List Keyframe) (id : String) (time zoom x y : ℚ) :
    List Keyframe :=
  let newKeyframe : Keyframe := ⟨id, time, zoom, x, y, none⟩
  let filtered := keyframes.filter fun k => decide (abs (k.time - time) > 1/10)
  sortKeyframes (filtered ++ [newKeyframe])

/-- Event-driven auto-zoom `generateKeyframesFromEvents`: with no events
it falls through to `analyzeMotionFallback`, which is an empty stub in
this variant, so the state is unchanged; otherwise it synthesizes one
region per `mousedown` (`ZOOM_FOCUS = 2.5`, `ZOOM_DURATION = 3.0`) and
resets the manual keyframes to the sole start keyframe. -/
def generateKeyframesFromEvents (s : EditorState) (mouseEvents : List MouseEvent) :
    EditorState :=
  if mouseEvents.length = 0 then s
  else
    let clicks := mouseEvents.filter fun ev => ev.type == EventType.mousedown
    let newRegions := clicks.enum.map fun p =>
      ({ id := "auto-region-" ++ toString p.1, startTime := p.2.time,
         endTime := p.2.time + 3, targetZoom := 5/2,
         initialX := p.2.x, initialY := p.2.y } : ZoomRegion)
    { s with zoomRegions := newRegions, manualKeyframes := [startKeyframe] }

/-- `addManualRegion`: appends a region of duration `DEFAULT_DURATION
(3.0)` at the playhead; target zoom is the current slider zoom when it
exceeds 1.2, else 2.0. -/
def addManualRegion (s : EditorState) (rid : String) (currentTime zoomLevel panX panY : ℚ) :
    EditorState :=
  { s with zoomRegions := s.zoomRegions ++
      [⟨rid, currentTime, currentTime + 3,
        if zoomLevel > 6/5 then zoomLevel else 2, panX, panY⟩] }

/-- Region resize (`handleDragStart`'s `handleMouseMove`): the new
duration is `Math.max(0.5, startDuration + deltaSeconds)` and the
matching region's `endTime` becomes `startTime + newDuration`. -/
def resizeRegion (s : EditorState) (rid : String) (startDuration deltaSeconds : ℚ) :
    EditorState :=
  let newDuration := max (1/2) (startDuration + deltaSeconds)
  { s with zoomRegions := s.zoomRegions.map fun r =>
      if r.id == rid then { r with endTime := r.startTime + newDuration } else r }

/-- `deleteRegion`. -/
def deleteRegion (s : EditorState) (rid : String) : EditorState :=
  { s with zoomRegions := s.zoomRegions.filter fun r => r.id != rid }

/-- Stage drag (`handleStageMouseDown`'s `handleMouseMove`): pans are
clamped to `[0,100]` and written into the selected region's anchor. -/
def dragRegionAnchor (s : EditorState) (rid : String) (rawX rawY : ℚ) : EditorState :=
  let newPanX := max 0 (min 100 rawX)
  let newPanY := max 0 (min 100 rawY)
  { s with zoomRegions := s.zoomRegions.map fun r =>
      if r.id == rid then { r with initialX := newPanX, initialY := newPanY } else r }

/-- Source crop computation of the export compositor (`renderFrame`
step 4): `srcWidth/srcHeight/srcX/srcY` as drawn by `drawImage`. -/
structure SrcRect where
  x : ℚ
  y : ℚ
  w : ℚ
  h : ℚ
deriving DecidableEq, Repr

/-- Crop rectangle from pose and source dimensions, exactly as
`renderFrame` computes it (no clamping to the source extent). -/
def cropRect (po : Pose) (videoWidth videoHeight : ℚ) : SrcRect :=
  let srcWidth := videoWidth / po.zoom
  let srcHeight := videoHeight / po.zoom
  let srcX := po.x / 100 * videoWidth - srcWidth / 2
  let srcY := po.y / 100 * videoHeight - srcHeight / 2
  ⟨srcX, srcY, srcWidth, srcHeight⟩

/-- Trajectory sorted ascending by time (the §4.2 precondition). -/
def TimeSorted (kfs : List Keyframe) : Prop :=
  List.Pairwise (fun a b => a.time ≤ b.time) kfs

/-- Trajectory strictly sorted by time (what the debounce pass
guarantees for every compiled trajectory). -/
def StrictTimeSorted (kfs : List Keyframe) : Prop :=
  List.Pairwise (fun a b => a.time < b.time) kfs

/-- Componentwise containment of a value between two endpoints. -/
def between (a b c : ℚ) : Prop := min a b ≤ c ∧ c ≤ max a b

/-- The interpolated pose lies componentwise between the two segment
endpoint keyframes. -/
def Pose.inRange (k1 k2 : Keyframe) (po : Pose) : Prop :=
  between k1.zoom k2.zoom po.zoom ∧ between k1.x k2.x po.x ∧ between k1.y k2.y po.y

/-- Editor states reachable from the initial state by the public
mutations of the region editor (keyframe add/delete, region
add/resize/delete/drag, auto-zoom synthesis). -/
inductive Reachable : EditorState → Prop
  | init : Reachable initialEditorState
  | addKf {s : EditorState} (id : String) (time zoom x y : ℚ) :
      Reachable s → Reachable (addKeyframe s id time zoom x y)
  | delKf {s : EditorState} (id : String) :
      Reachable s → Reachable (deleteKeyframe s id)
  | addRegion {s : EditorState} (rid : String) (currentTime zoomLevel panX panY : ℚ) :
      Reachable s → Reachable (addManualRegion s rid currentTime zoomLevel panX panY)
  | resize {s : EditorState} (rid : String) (startDuration deltaSeconds : ℚ) :
      Reachable s → Reachable (resizeRegion s rid startDuration deltaSeconds)
  | delRegion {s : EditorState} (rid : String) :
      Reachable s → Reachable (deleteRegion s rid)
  | drag {s : EditorState} (rid : String) (rawX rawY : ℚ) :
      Reachable s → Reachable (dragRegionAnchor s rid rawX rawY)
  | synth {s : EditorState} (events : List MouseEvent) :
      Reachable s → Reachable (generateKeyframesFromEvents s events)

/-- C1: compiling one ZoomRegion `{startTime 5, endTime 8, targetZoom 2,
anchor (30,70)}` with the default manual keyframe set and no events
yields exactly the five keyframes `t = 0, 4.5, 5, 8, 8.8` with poses
`(1,50,50), (1,50,50), (2,30,70), (2,30,70), (1,50,50)`, in time order,
none removed by the debounce pass. -/
theorem scenarioB_compile :
    deriveKeyframes [startKeyframe] [⟨"r1", 5, 8, 2, 30, 70⟩] [] =
      [⟨"start", 0, 1, 50, 50, none⟩,
       ⟨"region-r1-anchor", 9/2, 1, 50, 50, some Easing.linear⟩,
       ⟨"region-r1-start", 5, 2, 30, 70, some Easing.easeInOut⟩,
       ⟨"region-r1-hold", 8, 2, 30, 70, some Easing.linear⟩,
       ⟨"region-r1-end", 44/5, 1, 50, 50, some Easing.easeInOut⟩] := by
  norm_num [deriveKeyframes, regionKeyframes, followKfs, sortKeyframes, sinsert, debounce,
    debounceGo, startKeyframe]
  exact ⟨rfl, rfl, rfl, rfl⟩

/-- C4, counterexample: the preview loop's easing (`easeInOutCubic`) and
the export loop's easing (the quadratic `ease`) are NOT the same
function: at progress `p = 1/4` they give `1/16` and `1/8`, and on the
two-keyframe trajectory `[(t 0, zoom 1), (t 1, zoom 2)]` the preview
target pose and the export pose differ at `t = 1/4`. -/
theorem easing_mismatch_cex :
    easeInOutCubic (1/4) ≠ easeInOutQuad (1/4) ∧
    updateTransformPose [⟨"start", 0, 1, 50, 50, none⟩, ⟨"k", 1, 2, 80, 20, none⟩] (1/4) ≠
      renderFramePose [⟨"start", 0, 1, 50, 50, none⟩, ⟨"k", 1, 2, 80, 20, none⟩] (1/4) := by
  norm_num [easeInOutCubic, easeInOutQuad, updateTransformPose, renderFramePose, sampleWith,
    sortKeyframes, sinsert, findNext, defaultKeyframe]

/-- C4, amended: the two call sites use two different easing curves —
cubic in the preview loop, quadratic in the export loop.  They agree at
`p = 0, 1/2, 1`, but differ at some `p ∈ [0,1]`, and consequently the
two loops compute different poses for some trajectory and time. -/
theorem easing_sites_diverge :
    easeInOutCubic 0 = easeInOutQuad 0 ∧
    easeInOutCubic (1/2) = easeInOutQuad (1/2) ∧
    easeInOutCubic 1 = easeInOutQuad 1 ∧
    (∃ p : ℚ, 0 ≤ p ∧ p ≤ 1 ∧ easeInOutCubic p ≠ easeInOutQuad p) ∧
    (∃ (kfs : List Keyframe) (t : ℚ), updateTransformPose kfs t ≠ renderFramePose kfs t) := by
  refine ⟨by norm_num [easeInOutCubic, easeInOutQuad],
          by norm_num [easeInOutCubic, easeInOutQuad],
          by norm_num [easeInOutCubic, easeInOutQuad],
          ⟨1/4, by norm_num, by norm_num, by norm_num [easeInOutCubic, easeInOutQuad]⟩,
          ⟨[⟨"start", 0, 1, 50, 50, none⟩, ⟨"k", 1, 2, 80, 20, none⟩], 1/4, ?_⟩⟩
  norm_num [updateTransformPose, renderFramePose, sampleWith, sortKeyframes, sinsert,
    findNext, defaultKeyframe, easeInOutCubic, easeInOutQuad]

/-- C5, failing input: the proximity-filtering `addKeyframe` of the
first editor variant, applied to the sole `start` keyframe with the
playhead at `t = 0.05`, removes the `start` keyframe (|0 - 0.05| ≤ 0.1),
leaving a keyframe set with no keyframe of id `"start"` — violating the
"start is never removed" invariant that the same variant's
`deleteKeyframe` enforces. -/
theorem addKeyframeV1_removes_start :
    addKeyframeV1 [startKeyframe] "1730000000000" (1/20) 2 30 70 =
      [⟨"1730000000000", 1/20, 2, 30, 70, none⟩] ∧
    ¬ ∃ k ∈ addKeyframeV1 [startKeyframe] "1730000000000" (1/20) 2 30 70, k.id = "start" := by
  norm_num [addKeyframeV1, startKeyframe, sortKeyframes, sinsert, abs]
  decide

/-- C6, counterexample: with manual keyframes at `t = 0, 0.03, 0.06`
(no regions, no events) the compile step keeps only the keyframe at
`t = 0`: the keyframe at `t = 0.06` is removed even though its time is
more than 0.05 s after the previous surviving keyframe (`t = 0`),
because the filter compares it with its positional predecessor at
`t = 0.03`, which was itself removed. -/
theorem debounce_cascade_cex :
    (deriveKeyframes [startKeyframe, ⟨"k1", 3/100, 1, 50, 50, none⟩,
        ⟨"k2", 6/100, 2, 40, 40, none⟩] [] []).map Keyframe.time = [0] ∧
    (6/100 : ℚ) - 0 > 1/20 := by
  norm_num [deriveKeyframes, regionKeyframes, sortKeyframes, sinsert, debounce,
    debounceGo, startKeyframe]

/-- C7: event-driven synthesis on a single `mousedown` at
`t = 10, (40,60)` produces exactly one ZoomRegion
`{startTime 10, endTime 13, targetZoom 2.5 ∈ [2,2.5], anchor (40,60)}`
and simultaneously resets the manual keyframe set to the sole start
keyframe, whatever the previous editor state was. -/
theorem scenarioC_synthesis (s : EditorState) :
    generateKeyframesFromEvents s [⟨EventType.mousedown, 10, 40, 60⟩] =
      { s with manualKeyframes := [startKeyframe],
               zoomRegions := [⟨"auto-region-0", 10, 13, 5/2, 40, 60⟩] } ∧
    (2 : ℚ) ≤ 5/2 ∧ (5/2 : ℚ) ≤ 5/2 := by
  refine ⟨?_, by norm_num, by norm_num⟩
  norm_num [generateKeyframesFromEvents, startKeyframe]
  rfl

/-- Witness for C7: the synthesis applied to the concrete initial
editor state. -/
theorem scenarioC_synthesis_witness :
    generateKeyframesFromEvents initialEditorState [⟨EventType.mousedown, 10, 40, 60⟩] =
      { initialEditorState with
          manualKeyframes := [startKeyframe],
          zoomRegions := [⟨"auto-region-0", 10, 13, 5/2, 40, 60⟩] } ∧
    (2 : ℚ) ≤ 5/2 ∧ (5/2 : ℚ) ≤ 5/2 :=
  scenarioC_synthesis initialEditorState

/-- C9: the export compositor's source crop is exactly
`cropW = W/zoom`, `cropH = H/zoom`, `cropX = (x/100)·W - cropW/2`,
`cropY = (y/100)·H - cropH/2`, with no clamping to the source extent:
at zoom 4 with pan (0,0) on a 1920×1080 source the rectangle starts at
negative coordinates, i.e. partly outside the source frame. -/
theorem cropRect_formula_unclamped :
    (∀ z x y W H : ℚ, cropRect ⟨z, x, y⟩ W H =
      ⟨x/100*W - (W/z)/2, y/100*H - (H/z)/2, W/z, H/z⟩) ∧
    (cropRect ⟨4, 0, 0⟩ 1920 1080).x < 0 ∧ (cropRect ⟨4, 0, 0⟩ 1920 1080).y < 0 := by
  refine ⟨fun z x y W H => rfl, by norm_num [cropRect], by norm_num [cropRect]⟩

lemma StrictTimeSorted.timeSorted {kfs : List Keyframe} (h : StrictTimeSorted kfs) :
    TimeSorted kfs :=
  h.imp le_of_lt

lemma TimeSorted.getD_le {kfs : List Keyframe} (hs : TimeSorted kfs) {i j : Nat}
    (hij : i ≤ j) (hj : j < kfs.length) :
    (kfs.getD i defaultKeyframe).time ≤ (kfs.getD j defaultKeyframe).time := by
  rcases Nat.eq_or_lt_of_le hij with rfl | h
  · exact le_refl _
  · have hi : i < kfs.length := lt_trans h hj
    rw [List.getD_eq_getElem _ _ hi, List.getD_eq_getElem _ _ hj]
    exact List.pairwise_iff_getElem.mp hs i j hi hj h

lemma StrictTimeSorted.getD_lt {kfs : List Keyframe} (hs : StrictTimeSorted kfs) {i j : Nat}
    (hij : i < j) (hj : j < kfs.length) :
    (kfs.getD i defaultKeyframe).time < (kfs.getD j defaultKeyframe).time := by
  have hi : i < kfs.length := lt_trans hij hj
  rw [List.getD_eq_getElem _ _ hi, List.getD_eq_getElem _ _ hj]
  exact List.pairwise_iff_getElem.mp hs i j hi hj hij

lemma findNext_spec_some {t : ℚ} {kfs : List Keyframe} {j : Nat} (hj : j < kfs.length)
    (hbefore : ∀ m, m < j → ¬ t < (kfs.getD m defaultKeyframe).time)
    (hhit : t < (kfs.getD j defaultKeyframe).time) :
    findNext t kfs = some j := by
  induction kfs generalizing j with
  | nil => simp at hj
  | cons k rest ih =>
    cases j with
    | zero =>
      simp only [List.getD_cons_zero] at hhit
      simp [findNext, hhit]
    | succ j' =>
      have h0 : ¬ t < k.time := by
        have := hbefore 0 (Nat.succ_pos _)
        simpa using this
      have hrest : findNext t rest = some j' := by
        refine ih (by simpa using hj) (fun m hm => ?_) (by simpa using hhit)
        have := hbefore (m + 1) (by omega)
        simpa using this
      simp [findNext, h0, hrest]

lemma findNext_spec_none {t : ℚ} {kfs : List Keyframe}
    (h : ∀ m, m < kfs.length → ¬ t < (kfs.getD m defaultKeyframe).time) :
    findNext t kfs = none := by
  induction kfs with
  | nil => rfl
  | cons k rest ih =>
    have h0 : ¬ t < k.time := by have := h 0 (by simp); simpa using this
    have hrest : findNext t rest = none := by
      refine ih (fun m hm => ?_)
      have := h (m + 1) (by simpa using hm)
      simpa using this
    simp [findNext, h0, hrest]

lemma sampleWith_before_first (e : ℚ → ℚ) {kfs : List Keyframe} {t : ℚ} (hne : kfs ≠ [])
    (h : t < (kfs.getD 0 defaultKeyframe).time) :
    sampleWith e kfs t = some (kfs.getD 0 defaultKeyframe).pose := by
  cases kfs with
  | nil => exact absurd rfl hne
  | cons k rest =>
    simp only [List.getD_cons_zero] at h ⊢
    simp [sampleWith, findNext, h]

lemma sampleWith_after_last (e : ℚ → ℚ) {kfs : List Keyframe} {t : ℚ} (hne : kfs ≠ [])
    (hs : TimeSorted kfs)
    (h : (kfs.getD (kfs.length - 1) defaultKeyframe).time ≤ t) :
    sampleWith e kfs t = some (kfs.getD (kfs.length - 1) defaultKeyframe).pose := by
  have hlen : kfs.length ≠ 0 := by
    cases kfs with
    | nil => exact absurd rfl hne
    | cons k rest => simp
  have hnone : findNext t kfs = none := by
    refine findNext_spec_none (fun m hm => ?_)
    have hle : (kfs.getD m defaultKeyframe).time ≤ (kfs.getD (kfs.length - 1) defaultKeyframe).time :=
      hs.getD_le (by omega) (by omega)
    exact not_lt.mpr (le_trans hle h)
  simp [sampleWith, hlen, hnone]

lemma sortKeyframes_eq_self {kfs : List Keyframe} (hs : TimeSorted kfs) :
    sortKeyframes kfs = kfs := by
  induction kfs with
  | nil => rfl
  | cons k rest ih =>
    obtain ⟨hhead, htail⟩ := List.pairwise_cons.mp hs
    rw [sortKeyframes, ih htail]
    cases rest with
    | nil => rfl
    | cons k2 rest2 =>
      have : k.time ≤ k2.time := hhead k2 (by simp)
      simp [sinsert, this]

/-- C2: on a non-empty time-sorted trajectory, both the preview loop
and the export loop clamp: for `t` strictly before the first keyframe
they return the first keyframe's pose unchanged, and for `t` at or
after the last keyframe they return the last keyframe's pose
unchanged. -/
theorem sample_clamps_to_endpoints (kfs : List Keyframe) (t : ℚ) (hne : kfs ≠ [])
    (hs : TimeSorted kfs) :
    (t < (kfs.getD 0 defaultKeyframe).time →
      updateTransformPose kfs t = some (kfs.getD 0 defaultKeyframe).pose ∧
      renderFramePose kfs t = some (kfs.getD 0 defaultKeyframe).pose) ∧
    ((kfs.getD (kfs.length - 1) defaultKeyframe).time ≤ t →
      updateTransformPose kfs t = some (kfs.getD (kfs.length - 1) defaultKeyframe).pose ∧
      renderFramePose kfs t = some (kfs.getD (kfs.length - 1) defaultKeyframe).pose) := by
  rw [updateTransformPose, renderFramePose, sortKeyframes_eq_self hs]
  exact ⟨fun h => ⟨sampleWith_before_first _ hne h, sampleWith_before_first _ hne h⟩,
         fun h => ⟨sampleWith_after_last _ hne hs h, sampleWith_after_last _ hne hs h⟩⟩

/-- Witness for C2: on the concrete sorted trajectory
`[(t 0, pose (1,50,50)), (t 2, pose (2,80,20))]` at `t = 5` (past the
last keyframe) both loops hold the final pose. -/
theorem sample_clamps_to_endpoints_witness :
    updateTransformPose [startKeyframe, ⟨"k", 2, 2, 80, 20, none⟩] 5 = some ⟨2, 80, 20⟩ ∧
    renderFramePose [startKeyframe, ⟨"k", 2, 2, 80, 20, none⟩] 5 = some ⟨2, 80, 20⟩ :=
  (sample_clamps_to_endpoints [startKeyframe, ⟨"k", 2, 2, 80, 20, none⟩] 5 (by simp)
    (by norm_num [TimeSorted, startKeyframe])).2 (by norm_num [startKeyframe])

lemma sampleWith_interp (e : ℚ → ℚ) {kfs : List Keyframe} {t : ℚ} {n : Nat}
    (hlen : kfs.length ≠ 0) (hfind : findNext t kfs = some (n + 1))
    (hden : (kfs.getD (n + 1) defaultKeyframe).time - (kfs.getD n defaultKeyframe).time ≠ 0) :
    sampleWith e kfs t =
      some ⟨(kfs.getD n defaultKeyframe).zoom +
              ((kfs.getD (n + 1) defaultKeyframe).zoom - (kfs.getD n defaultKeyframe).zoom) *
                e ((t - (kfs.getD n defaultKeyframe).time) /
                  ((kfs.getD (n + 1) defaultKeyframe).time - (kfs.getD n defaultKeyframe).time)),
            (kfs.getD n defaultKeyframe).x +
              ((kfs.getD (n + 1) defaultKeyframe).x - (kfs.getD n defaultKeyframe).x) *
                e ((t - (kfs.getD n defaultKeyframe).time) /
                  ((kfs.getD (n + 1) defaultKeyframe).time - (kfs.getD n defaultKeyframe).time)),
            (kfs.getD n defaultKeyframe).y +
              ((kfs.getD (n + 1) defaultKeyframe).y - (kfs.getD n defaultKeyframe).y) *
                e ((t - (kfs.getD n defaultKeyframe).time) /
                  ((kfs.getD (n + 1) defaultKeyframe).time - (kfs.getD n defaultKeyframe).time))⟩ := by
  simp only [sampleWith, if_neg hlen, hfind, if_neg hden]

lemma sampleWith_degenerate (e : ℚ → ℚ) (he : e 0 = 0) {kfs : List Keyframe}
    (hs : TimeSorted kfs) {i : Nat} (hi : i + 1 < kfs.length) {t : ℚ}
    (h2 : (kfs.getD (i + 1) defaultKeyframe).time = t)
    (hlast : i + 2 = kfs.length ∨
      (i + 2 < kfs.length ∧ t < (kfs.getD (i + 2) defaultKeyframe).time)) :
    sampleWith e kfs t = some (kfs.getD (i + 1) defaultKeyframe).pose := by
  have hlen : kfs.length ≠ 0 := by omega
  have hbefore : ∀ m, m ≤ i + 1 → ¬ t < (kfs.getD m defaultKeyframe).time := by
    intro m hm
    have hle : (kfs.getD m defaultKeyframe).time ≤ (kfs.getD (i + 1) defaultKeyframe).time :=
      hs.getD_le hm hi
    rw [h2] at hle
    exact not_lt.mpr hle
  rcases hlast with hlen2 | ⟨hlt, hnext⟩
  · have hnone : findNext t kfs = none :=
      findNext_spec_none (fun m hm => hbefore m (by omega))
    have hidx : kfs.length - 1 = i + 1 := by omega
    simp [sampleWith, hlen, hnone, hidx]
  · have hfind : findNext t kfs = some (i + 2) :=
      findNext_spec_some hlt (fun m hm => hbefore m (by omega)) hnext
    have hden : (kfs.getD (i + 2) defaultKeyframe).time - (kfs.getD (i + 1) defaultKeyframe).time ≠ 0 := by
      rw [h2]
      exact sub_ne_zero.mpr (ne_of_gt hnext)
    have hprog : (t - (kfs.getD (i + 1) defaultKeyframe).time) /
        ((kfs.getD (i + 2) defaultKeyframe).time - (kfs.getD (i + 1) defaultKeyframe).time) = 0 := by
      rw [h2, sub_self, zero_div]
    rw [sampleWith_interp e hlen hfind hden, hprog, he]
    simp [Keyframe.pose]

/-- C3, amended: for a time-sorted trajectory with two adjacent
keyframes `k1, k2` at the same time `t`, where `k2` is the last
keyframe at that time (it is either the final keyframe or followed by
a strictly later one), both loops are defined at `t` — the progress
division is never performed with a zero denominator — and return
exactly `k2`'s pose.  (When further keyframes share the same time, the
pose of the *last* keyframe at that time is returned instead; see the
counterexample.) -/
theorem degenerate_segment_guarded (kfs : List Keyframe) (hs : TimeSorted kfs) (i : Nat)
    (hi : i + 1 < kfs.length) (t : ℚ)
    (_h1 : (kfs.getD i defaultKeyframe).time = t)
    (h2 : (kfs.getD (i + 1) defaultKeyframe).time = t)
    (hlast : i + 2 = kfs.length ∨
      (i + 2 < kfs.length ∧ t < (kfs.getD (i + 2) defaultKeyframe).time)) :
    updateTransformPose kfs t = some (kfs.getD (i + 1) defaultKeyframe).pose ∧
    renderFramePose kfs t = some (kfs.getD (i + 1) defaultKeyframe).pose := by
  rw [updateTransformPose, renderFramePose, sortKeyframes_eq_self hs]
  constructor
  · exact sampleWith_degenerate _ (by norm_num [easeInOutCubic]) hs hi h2 hlast
  · exact sampleWith_degenerate _ (by norm_num [easeInOutQuad]) hs hi h2 hlast

/-- Witness for C3 (amended): the trajectory `[("a", t 5), ("b", t 5)]`
with a zero-length segment sampled at `t = 5` yields `"b"`'s pose
`(2,30,70)` in both loops. -/
theorem degenerate_segment_guarded_witness :
    updateTransformPose [⟨"a", 5, 1, 50, 50, none⟩, ⟨"b", 5, 2, 30, 70, none⟩] 5 =
      some ⟨2, 30, 70⟩ ∧
    renderFramePose [⟨"a", 5, 1, 50, 50, none⟩, ⟨"b", 5, 2, 30, 70, none⟩] 5 =
      some ⟨2, 30, 70⟩ :=
  degenerate_segment_guarded [⟨"a", 5, 1, 50, 50, none⟩, ⟨"b", 5, 2, 30, 70, none⟩]
    (by norm_num [TimeSorted]) 0 (by norm_num) 5 rfl rfl (Or.inl rfl)

/-- C3, counterexample: with THREE keyframes at the same time `t = 5`,
the adjacent degenerate pair `("a","b")` satisfies the claim's
hypotheses, yet sampling at `t = 5` returns the pose of `"c"` — the
last keyframe at that time — not `"b"`'s pose `(2,30,70)` as the claim
states. -/
theorem degenerate_segment_cex :
    updateTransformPose [⟨"a", 5, 1, 50, 50, none⟩, ⟨"b", 5, 2, 30, 70, none⟩,
        ⟨"c", 5, 3, 10, 10, none⟩] 5 = some ⟨3, 10, 10⟩ ∧
    updateTransformPose [⟨"a", 5, 1, 50, 50, none⟩, ⟨"b", 5, 2, 30, 70, none⟩,
        ⟨"c", 5, 3, 10, 10, none⟩] 5 ≠ some (⟨2, 30, 70⟩ : Pose) := by
  norm_num [updateTransformPose, sampleWith, sortKeyframes, sinsert, findNext, defaultKeyframe,
    Keyframe.pose]

lemma lerp_between {a b f : ℚ} (h0 : 0 ≤ f) (h1 : f ≤ 1) :
    between a b (a + (b - a) * f) := by
  rcases le_total a b with hab | hab
  · rw [between, min_eq_left hab, max_eq_right hab]
    constructor <;> nlinarith
  · rw [between, min_eq_right hab, max_eq_left hab]
    constructor <;> nlinarith

lemma between_right (a b : ℚ) : between a b b := ⟨min_le_right a b, le_max_right a b⟩

lemma easeInOutCubic_zero : easeInOutCubic 0 = 0 := by norm_num [easeInOutCubic]

lemma easeInOutQuad_zero : easeInOutQuad 0 = 0 := by norm_num [easeInOutQuad]

lemma easeInOutCubic_bounds : ∀ p : ℚ, 0 ≤ p → p ≤ 1 → 0 ≤ easeInOutCubic p ∧ easeInOutCubic p ≤ 1 := by
  intro p h0 h1
  rw [easeInOutCubic]
  split_ifs with h
  · constructor
    · nlinarith [mul_nonneg (mul_nonneg h0 h0) h0]
    · nlinarith [mul_nonneg (mul_nonneg h0 h0) (by linarith : (0:ℚ) ≤ 1/2 - p),
        mul_nonneg h0 (by linarith : (0:ℚ) ≤ 1/2 - p)]
  · constructor
    · nlinarith [mul_nonneg (mul_nonneg (by linarith : (0:ℚ) ≤ 1 - p)
          (by linarith : (0:ℚ) ≤ 1 - p)) (by linarith : (0:ℚ) ≤ p - 1/2),
        mul_nonneg (by linarith : (0:ℚ) ≤ 1 - p) (by linarith : (0:ℚ) ≤ p - 1/2)]
    · nlinarith [mul_nonneg (sq_nonneg (2*p - 2)) (by linarith : (0:ℚ) ≤ 1 - p)]

lemma easeInOutQuad_bounds : ∀ p : ℚ, 0 ≤ p → p ≤ 1 → 0 ≤ easeInOutQuad p ∧ easeInOutQuad p ≤ 1 := by
  intro p h0 h1
  rw [easeInOutQuad]
  split_ifs with h
  · constructor
    · nlinarith [sq_nonneg p]
    · nlinarith [mul_nonneg h0 (by linarith : (0:ℚ) ≤ 1/2 - p)]
  · constructor
    · nlinarith [mul_nonneg (by linarith : (0:ℚ) ≤ p - 1/2) (by linarith : (0:ℚ) ≤ 3/2 - p)]
    · nlinarith [sq_nonneg (p - 1)]

lemma sampleWith_no_overshoot (e : ℚ → ℚ) (he0 : e 0 = 0)
    (he : ∀ p : ℚ, 0 ≤ p → p ≤ 1 → 0 ≤ e p ∧ e p ≤ 1)
    {kfs : List Keyframe} (hs : StrictTimeSorted kfs) {i : Nat} (hi : i + 1 < kfs.length)
    {t : ℚ} (h1 : (kfs.getD i defaultKeyframe).time ≤ t)
    (h2 : t ≤ (kfs.getD (i + 1) defaultKeyframe).time) :
    ∃ po, sampleWith e kfs t = some po ∧
      Pose.inRange (kfs.getD i defaultKeyframe) (kfs.getD (i + 1) defaultKeyframe) po := by
  have hlen : kfs.length ≠ 0 := by omega
  have hts := hs.timeSorted
  rcases lt_or_eq_of_le h2 with hlt | heq
  · have hbefore : ∀ m, m < i + 1 → ¬ t < (kfs.getD m defaultKeyframe).time := by
      intro m hm
      exact not_lt.mpr (le_trans (hts.getD_le (by omega) (by omega)) h1)
    have hfind : findNext t kfs = some (i + 1) := findNext_spec_some hi hbefore hlt
    have hdlt : (kfs.getD i defaultKeyframe).time < (kfs.getD (i + 1) defaultKeyframe).time :=
      hs.getD_lt (Nat.lt_succ_self i) hi
    have hden : (kfs.getD (i + 1) defaultKeyframe).time - (kfs.getD i defaultKeyframe).time ≠ 0 :=
      sub_ne_zero.mpr (ne_of_gt hdlt)
    have hp0 : 0 ≤ (t - (kfs.getD i defaultKeyframe).time) /
        ((kfs.getD (i + 1) defaultKeyframe).time - (kfs.getD i defaultKeyframe).time) :=
      div_nonneg (by linarith) (by linarith)
    have hp1 : (t - (kfs.getD i defaultKeyframe).time) /
        ((kfs.getD (i + 1) defaultKeyframe).time - (kfs.getD i defaultKeyframe).time) ≤ 1 :=
      le_of_lt ((div_lt_one (by linarith)).mpr (by linarith))
    obtain ⟨he1, he2⟩ := he _ hp0 hp1
    exact ⟨_, sampleWith_interp e hlen hfind hden,
      lerp_between he1 he2, lerp_between he1 he2, lerp_between he1 he2⟩
  · by_cases hc : i + 2 < kfs.length
    · have hbefore : ∀ m, m < i + 2 → ¬ t < (kfs.getD m defaultKeyframe).time := by
        intro m hm
        have : (kfs.getD m defaultKeyframe).time ≤ (kfs.getD (i + 1) defaultKeyframe).time :=
          hts.getD_le (by omega) hi
        rw [← heq] at this
        exact not_lt.mpr this
      have hhit : t < (kfs.getD (i + 2) defaultKeyframe).time := by
        rw [heq]
        exact hs.getD_lt (by omega) hc
      have hfind : findNext t kfs = some (i + 2) := findNext_spec_some hc hbefore hhit
      have hden : (kfs.getD (i + 2) defaultKeyframe).time - (kfs.getD (i + 1) defaultKeyframe).time ≠ 0 := by
        refine sub_ne_zero.mpr ?_
        rw [← heq]
        exact ne_of_gt hhit
      have hprog : (t - (kfs.getD (i + 1) defaultKeyframe).time) /
          ((kfs.getD (i + 2) defaultKeyframe).time - (kfs.getD (i + 1) defaultKeyframe).time) = 0 := by
        rw [heq, sub_self, zero_div]
      refine ⟨_, sampleWith_interp e hlen hfind hden, ?_⟩
      rw [hprog, he0]
      simp only [mul_zero, add_zero]
      exact ⟨between_right _ _, between_right _ _, between_right _ _⟩
    · have hlen2 : i + 2 = kfs.length := by omega
      have hnone : findNext t kfs = none := by
        refine findNext_spec_none (fun m hm => ?_)
        have : (kfs.getD m defaultKeyframe).time ≤ (kfs.getD (i + 1) defaultKeyframe).time :=
          hts.getD_le (by omega) hi
        rw [← heq] at this
        exact not_lt.mpr this
      have hne : kfs ≠ [] := by
        intro hnil
        rw [hnil] at hlen
        exact hlen rfl
      have hidx : kfs.length - 1 = i + 1 := by omega
      have hlastle : (kfs.getD (kfs.length - 1) defaultKeyframe).time ≤ t := by
        rw [hidx, heq]
      rw [sampleWith_after_last e hne hts hlastle, hidx]
      exact ⟨(kfs.getD (i + 1) defaultKeyframe).pose, rfl,
        between_right _ _, between_right _ _, between_right _ _⟩

/-- C8, counterexample: the claim fails on a merely time-sorted
(non-strict) trajectory.  With three keyframes at the same time
`t = 5` and zooms 1, 2, 5, the adjacent pair `(kfs[0], kfs[1])` spans
the zoom range `[1, 2]`, yet both loops sampled at `t = 5` return the
last keyframe's pose with zoom 5 — outside the range. -/
theorem interpolation_overshoot_cex :
    TimeSorted [⟨"a", 5, 1, 50, 50, none⟩, ⟨"b", 5, 2, 30, 70, none⟩,
      ⟨"c", 5, 5, 10, 10, none⟩] ∧
    updateTransformPose [⟨"a", 5, 1, 50, 50, none⟩, ⟨"b", 5, 2, 30, 70, none⟩,
      ⟨"c", 5, 5, 10, 10, none⟩] 5 = some ⟨5, 10, 10⟩ ∧
    renderFramePose [⟨"a", 5, 1, 50, 50, none⟩, ⟨"b", 5, 2, 30, 70, none⟩,
      ⟨"c", 5, 5, 10, 10, none⟩] 5 = some ⟨5, 10, 10⟩ ∧
    ¬ Pose.inRange ⟨"a", 5, 1, 50, 50, none⟩ ⟨"b", 5, 2, 30, 70, none⟩
      (⟨5, 10, 10⟩ : Pose) := by
  refine ⟨by norm_num [TimeSorted], ?_, ?_, ?_⟩
  · norm_num [updateTransformPose, sampleWith, sortKeyframes, sinsert, findNext,
      defaultKeyframe, Keyframe.pose]
  · norm_num [renderFramePose, sampleWith, sortKeyframes, sinsert, findNext,
      defaultKeyframe, Keyframe.pose]
  · intro hin
    have := hin.1.2
    rw [max_def] at this
    norm_num at this

/-- C8, amended: on a STRICTLY time-sorted trajectory (what the
debounce pass guarantees for every compiled trajectory — equal-time
keyframes excluded), for every adjacent keyframe pair `k1 = kfs[i]`,
`k2 = kfs[i+1]` and every `t` with `k1.time ≤ t ≤ k2.time`, both the
preview loop (cubic easing) and the export loop (quadratic easing)
return a pose whose zoom, x and y each lie within
`[min(k1.c, k2.c), max(k1.c, k2.c)]` — no overshoot.  On trajectories
with equal-time keyframes the bound can fail (see the
counterexample). -/
theorem interpolation_no_overshoot (kfs : List Keyframe) (hs : StrictTimeSorted kfs)
    (i : Nat) (hi : i + 1 < kfs.length) (t : ℚ)
    (h1 : (kfs.getD i defaultKeyframe).time ≤ t)
    (h2 : t ≤ (kfs.getD (i + 1) defaultKeyframe).time) :
    (∃ po, updateTransformPose kfs t = some po ∧
      Pose.inRange (kfs.getD i defaultKeyframe) (kfs.getD (i + 1) defaultKeyframe) po) ∧
    (∃ po, renderFramePose kfs t = some po ∧
      Pose.inRange (kfs.getD i defaultKeyframe) (kfs.getD (i + 1) defaultKeyframe) po) := by
  rw [updateTransformPose, renderFramePose, sortKeyframes_eq_self hs.timeSorted]
  exact ⟨sampleWith_no_overshoot _ easeInOutCubic_zero easeInOutCubic_bounds hs hi h1 h2,
         sampleWith_no_overshoot _ easeInOutQuad_zero easeInOutQuad_bounds hs hi h1 h2⟩

/-- Witness for C8: concrete instance on the two-keyframe trajectory
`[(t 0, (1,50,50)), (t 2, (2,80,20))]` at `t = 1`. -/
theorem interpolation_no_overshoot_witness :
    (∃ po, updateTransformPose [startKeyframe, ⟨"k", 2, 2, 80, 20, none⟩] 1 = some po ∧
      Pose.inRange startKeyframe ⟨"k", 2, 2, 80, 20, none⟩ po) ∧
    (∃ po, renderFramePose [startKeyframe, ⟨"k", 2, 2, 80, 20, none⟩] 1 = some po ∧
      Pose.inRange startKeyframe ⟨"k", 2, 2, 80, 20, none⟩ po) := by
  have h := interpolation_no_overshoot [startKeyframe, ⟨"k", 2, 2, 80, 20, none⟩]
    (by norm_num [StrictTimeSorted, startKeyframe]) 0 (by norm_num) 1
    (by norm_num [startKeyframe]) (by norm_num)
  simpa [startKeyframe] using h

lemma mem_sinsert {x k : Keyframe} {l : List Keyframe} : x ∈ sinsert k l ↔ x = k ∨ x ∈ l := by
  induction l with
  | nil => simp [sinsert]
  | cons k2 rest ih =>
    rw [sinsert]
    split_ifs with h
    · simp [or_comm, or_assoc, or_left_comm]
    · simp only [List.mem_cons, ih]
      tauto

lemma sinsert_sorted {k : Keyframe} {l : List Keyframe} (hs : TimeSorted l) :
    TimeSorted (sinsert k l) := by
  induction l with
  | nil => simp [sinsert, TimeSorted]
  | cons k2 rest ih =>
    obtain ⟨hhead, htail⟩ := List.pairwise_cons.mp hs
    rw [sinsert]
    split_ifs with h
    · refine List.pairwise_cons.mpr ⟨?_, hs⟩
      intro a ha
      rcases List.mem_cons.mp ha with rfl | ha2
      · exact h
      · exact le_trans h (hhead a ha2)
    · refine List.pairwise_cons.mpr ⟨?_, ih htail⟩
      intro a ha
      rcases mem_sinsert.mp ha with rfl | ha2
      · exact le_of_lt (not_le.mp h)
      · exact hhead a ha2

lemma sortKeyframes_sorted (l : List Keyframe) : TimeSorted (sortKeyframes l) := by
  induction l with
  | nil => simp [sortKeyframes, TimeSorted]
  | cons k rest ih => exact sinsert_sorted ih

lemma debounceGo_gap : ∀ (l : List Keyframe) (prev : Keyframe), TimeSorted (prev :: l) →
    (∀ x ∈ debounceGo prev l, 1/20 < x.time - prev.time) ∧
    List.Pairwise (fun a b => 1/20 < b.time - a.time) (debounceGo prev l) := by
  intro l
  induction l with
  | nil => exact fun prev _ => ⟨by simp [debounceGo], by simp [debounceGo]⟩
  | cons kf rest ih =>
    intro prev hs
    obtain ⟨hhead, htail⟩ := List.pairwise_cons.mp hs
    have hprevkf : prev.time ≤ kf.time := hhead kf (by simp)
    obtain ⟨ih1, ih2⟩ := ih kf htail
    rw [debounceGo]
    split_ifs with h
    · refine ⟨?_, List.pairwise_cons.mpr ⟨ih1, ih2⟩⟩
      intro x hx
      rcases List.mem_cons.mp hx with rfl | hx2
      · exact h
      · have := ih1 x hx2
        linarith
    · refine ⟨?_, ih2⟩
      intro x hx
      have := ih1 x hx
      linarith

lemma debounce_gap {arr : List Keyframe} (hs : TimeSorted arr) :
    List.Pairwise (fun a b => 1/20 < b.time - a.time) (debounce arr) := by
  cases arr with
  | nil => simp [debounce]
  | cons kf rest =>
    obtain ⟨h1, h2⟩ := debounceGo_gap rest kf hs
    rw [debounce]
    exact List.pairwise_cons.mpr ⟨h1, h2⟩

lemma debounceGo_mem_head {prev b : Keyframe} (rest : List Keyframe)
    (hgap : 1/20 < b.time - prev.time) : b ∈ debounceGo prev (b :: rest) := by
  rw [debounceGo, if_pos hgap]
  exact List.mem_cons_self _ _

lemma debounceGo_mem {l : List Keyframe} : ∀ (prev : Keyframe) (i : Nat), i + 1 < l.length →
    1/20 < (l.getD (i + 1) defaultKeyframe).time - (l.getD i defaultKeyframe).time →
    l.getD (i + 1) defaultKeyframe ∈ debounceGo prev l := by
  induction l with
  | nil => intro prev i hi; simp at hi
  | cons b rest ih =>
    intro prev i hi hgap
    cases i with
    | zero =>
      cases rest with
      | nil => simp at hi
      | cons c rest2 =>
        simp only [List.getD_cons_zero, List.getD_cons_succ] at hgap ⊢
        rw [debounceGo]
        split_ifs with h
        · exact List.mem_cons_of_mem _ (debounceGo_mem_head rest2 hgap)
        · exact debounceGo_mem_head rest2 hgap
    | succ j =>
      simp only [List.getD_cons_succ] at hgap ⊢
      have hj : j + 1 < rest.length := by simpa using hi
      rw [debounceGo]
      split_ifs with h
      · exact List.mem_cons_of_mem _ (ih b j hj hgap)
      · exact ih b j hj hgap

lemma debounce_mem {arr : List Keyframe} {i : Nat} (hi : i + 1 < arr.length)
    (hgap : 1/20 < (arr.getD (i + 1) defaultKeyframe).time - (arr.getD i defaultKeyframe).time) :
    arr.getD (i + 1) defaultKeyframe ∈ debounce arr := by
  cases arr with
  | nil => simp at hi
  | cons a rest =>
    rw [debounce]
    cases i with
    | zero =>
      cases rest with
      | nil => simp at hi
      | cons b rest2 =>
        simp only [List.getD_cons_zero, List.getD_cons_succ] at hgap ⊢
        exact List.mem_cons_of_mem _ (debounceGo_mem_head rest2 hgap)
    | succ j =>
      simp only [List.getD_cons_succ] at hgap ⊢
      have hj : j + 1 < rest.length := by simpa using hi
      exact List.mem_cons_of_mem _ (debounceGo_mem a j hj hgap)

/-- C6, amended: the debounce pass removes exactly those keyframes
whose time is within 0.05 s of the immediately preceding keyframe of
the sorted array (whether or not that predecessor itself survived).
Consequently (a) every two keyframes of a compiled trajectory differ
in time by more than 0.05 s, and (b) a keyframe more than 0.05 s after
its positional predecessor in the sorted array is never removed —
but one more than 0.05 s after the previous *surviving* keyframe can
be (see the counterexample). -/
theorem debounce_gap_characterization :
    (∀ (manual : List Keyframe) (regions : List ZoomRegion) (events : List MouseEvent),
      List.Pairwise (fun a b => 1/20 < b.time - a.time)
        (deriveKeyframes manual regions events)) ∧
    (∀ (arr : List Keyframe) (i : Nat), i + 1 < arr.length →
      1/20 < (arr.getD (i + 1) defaultKeyframe).time - (arr.getD i defaultKeyframe).time →
      arr.getD (i + 1) defaultKeyframe ∈ debounce arr) := by
  constructor
  · intro m rs es
    rw [deriveKeyframes]
    exact debounce_gap (sortKeyframes_sorted _)
  · intro arr i hi hgap
    exact debounce_mem hi hgap

/-- Witness for C6 (amended): a keyframe 1 s after its sorted
predecessor survives the debounce pass. -/
theorem debounce_gap_characterization_witness :
    (⟨"b", 1, 2, 80, 20, none⟩ : Keyframe) ∈ debounce [startKeyframe, ⟨"b", 1, 2, 80, 20, none⟩] :=
  debounce_gap_characterization.2 [startKeyframe, ⟨"b", 1, 2, 80, 20, none⟩] 0 (by norm_num)
    (by norm_num [startKeyframe])

/-- C10: in every reachable editor state, every zoom region has
duration at least 0.5 s — creation paths produce exactly 3.0 s and the
resize clamp enforces the 0.5 s floor, so `startTime < endTime` holds
with a 0.5 s margin throughout. -/
theorem region_min_duration (s : EditorState) (h : Reachable s) :
    ∀ r ∈ s.zoomRegions, 1/2 ≤ r.endTime - r.startTime := by
  induction h with
  | init => simp [initialEditorState]
  | addKf id time zoom x y _ ih => simpa [addKeyframe] using ih
  | delKf id _ ih =>
    intro r hr
    rw [deleteKeyframe] at hr
    split_ifs at hr
    · exact ih r hr
    · exact ih r hr
  | addRegion rid currentTime zoomLevel panX panY _ ih =>
    intro r hr
    simp only [addManualRegion, List.mem_append, List.mem_singleton] at hr
    rcases hr with hr | rfl
    · exact ih r hr
    · simp only
      linarith
  | resize rid startDuration deltaSeconds _ ih =>
    intro r hr
    simp only [resizeRegion, List.mem_map] at hr
    obtain ⟨r0, hr0, heq⟩ := hr
    by_cases hid : r0.id == rid
    · rw [if_pos hid] at heq
      subst heq
      simp only
      have : (1:ℚ)/2 ≤ max (1/2) (startDuration + deltaSeconds) := le_max_left _ _
      linarith
    · rw [if_neg hid] at heq
      subst heq
      exact ih r0 hr0
  | delRegion rid _ ih =>
    intro r hr
    rw [deleteRegion] at hr
    simp only [List.mem_filter] at hr
    exact ih r hr.1
  | drag rid rawX rawY _ ih =>
    intro r hr
    simp only [dragRegionAnchor, List.mem_map] at hr
    obtain ⟨r0, hr0, heq⟩ := hr
    by_cases hid : r0.id == rid
    · rw [if_pos hid] at heq
      subst heq
      exact ih r0 hr0
    · rw [if_neg hid] at heq
      subst heq
      exact ih r0 hr0
  | synth events _ ih =>
    intro r hr
    rw [generateKeyframesFromEvents] at hr
    split_ifs at hr
    · exact ih r hr
    · simp only [List.mem_map] at hr
      obtain ⟨p, _, heq⟩ := hr
      subst heq
      simp only
      linarith

/-- Witness for C10: the state reached by adding one manual region at
playhead 2 s contains the region `("r1", 2, 5, 2, 50, 50)`, whose
duration 3 is at least 0.5. -/
theorem region_min_duration_witness :
    (1:ℚ)/2 ≤ (⟨"r1", 2, 5, 2, 50, 50⟩ : ZoomRegion).endTime -
      (⟨"r1", 2, 5, 2, 50, 50⟩ : ZoomRegion).startTime := by
  have hmem : (⟨"r1", 2, 5, 2, 50, 50⟩ : ZoomRegion) ∈
      (addManualRegion initialEditorState "r1" 2 1 50 50).zoomRegions := by
    norm_num [addManualRegion, initialEditorState]
  exact region_min_duration _ (Reachable.addRegion "r1" 2 1 50 50 Reachable.init) _ hmem
